import Mathlib

/-!
# Workflow Orchestration Engine — verification development

Shallow embedding of the multi-agent launch orchestrator and its
frontend progress computation, with proofs of the specified invariants.

The repository ships the frontend (React pages, API client) and
documentation; the backend engine (Handler Registry, Run State Machine,
Orchestrator) is described by the specification and the README's agent
catalogue.  Definitions of the engine below are modelled from the spec;
the frontend progress computation is translated directly from
`frontend/src/pages/LaunchDetail` (the `theme.js` bundle).
-/

set_option autoImplicit false

namespace Orchestrator

/-- Launch lifecycle status (`pending | in_progress | completed | failed`). -/
inductive LaunchStatus
  | pending
  | in_progress
  | completed
  | failed
  deriving DecidableEq, Repr

/-- AgentResult status (`completed | failed`). -/
inductive ResultStatus
  | completed
  | failed
  deriving DecidableEq, Repr

/-- The outcome of one handler execution for one Launch.
Fields follow the persisted contract: `agent_name`, `status`, `output`
(present iff completed), `error_message` (present iff failed),
`error_flag`, `timestamp`. -/
structure AgentResult where
  agent_name : String
  status : ResultStatus
  output : Option String
  error_message : Option String
  error_flag : Bool
  timestamp : Nat
  deriving DecidableEq, Repr

/-- A unit of work: identity, display name, lifecycle status, nullable
summary, creation timestamp, and the owned ordered collection of
AgentResult entries (in creation order). -/
structure Launch where
  id : Nat
  name : String
  status : LaunchStatus
  summary : Option String
  created_at : Nat
  agent_results : List AgentResult
  deriving DecidableEq, Repr

/-- Handler phases (metadata for display only; they do not gate execution). -/
inductive Phase
  | research
  | planning
  | development
  | launch
  | monitoring
  deriving DecidableEq, Repr

/-- A handler definition: identity and phase.  Prompt building is an
opaque collaborator concern, folded into the environment's `invoke`. -/
structure HandlerSpec where
  name : String
  phase : Phase
  deriving DecidableEq, Repr

/-- Modelled from the spec: the Handler Registry, the static ordered list
of the 15 handler definitions enumerated in the README (`15 Specialized
AI Agents`).  The backend module holding this list is not shipped in
`src/`; the list is reconstructed from the README's catalogue and §4.1 of
the spec.  Being a Lean constant, it admits no mutation operations. -/
def registry : List HandlerSpec :=
  [ { name := "market_intelligence", phase := .research },
    { name := "customer_pulse", phase := .research },
    { name := "requirements_synthesizer", phase := .planning },
    { name := "timeline_resourcing", phase := .planning },
    { name := "risk_compliance", phase := .planning },
    { name := "dev_coordination", phase := .development },
    { name := "qa_testing", phase := .development },
    { name := "documentation", phase := .development },
    { name := "go_to_market", phase := .launch },
    { name := "readiness_check", phase := .launch },
    { name := "comms", phase := .launch },
    { name := "telemetry_kpi", phase := .monitoring },
    { name := "feedback_loop", phase := .monitoring },
    { name := "retrospective", phase := .monitoring },
    { name := "final_report", phase := .monitoring } ]

/-- The authoritative execution order: the registry's handler names. -/
def registryNames : List String := registry.map (fun h => h.name)

/-- The collaborator environment: the Agent Invoker (given a handler name
and the accumulated context, produce text or a classified failure; the
bounded retry happens inside this call site, so only the final outcome is
visible), the summary consolidation, and the clock. -/
structure Env where
  invoke : String → List (String × String) → Except String String
  summarize : List (String × String) → String
  now : Nat

/-- Modelled from the spec (§4.2 Context Accumulator): the ordered
sequence of `(agent_name, output)` for every completed AgentResult of the
launch, recomputed in Registry order. -/
def build_context (reg : List String) (l : Launch) : List (String × String) :=
  reg.filterMap fun nm =>
    (l.agent_results.find? fun r =>
        decide (r.agent_name = nm ∧ r.status = ResultStatus.completed)).bind
      fun r => r.output.map fun o => (nm, o)

/-- Does the launch already hold a completed AgentResult for this handler? -/
def hasCompletedResult (l : Launch) (nm : String) : Bool :=
  l.agent_results.any fun r =>
    decide (r.agent_name = nm ∧ r.status = ResultStatus.completed)

/-- A durable write performed by the engine: either one AgentResult
append or one Launch-status write. -/
inductive Write
  | agentResult (launch_id : Nat) (r : AgentResult)
  | launchStatus (launch_id : Nat) (s : LaunchStatus) (summary : Option String)
  deriving DecidableEq, Repr

/-- Is this write an AgentResult append? -/
def Write.isAgentResult : Write → Bool
  | .agentResult _ _ => true
  | .launchStatus _ _ _ => false

/-- Is this write a Launch-status write? -/
def Write.isLaunchStatus : Write → Bool
  | .agentResult _ _ => false
  | .launchStatus _ _ _ => true

/-- Modelled from the spec (§4.3 per-handler transition): invoke the
handler on the built context; on success append a completed AgentResult
(and, when this was the last Registry handler, transition the Launch to
`completed` with the consolidated summary); on failure append a failed
AgentResult carrying `error_message` and transition to `failed`.  The
returned list is the log of durable writes. -/
def stepHandler (env : Env) (reg : List String) (isLast : Bool)
    (nm : String) (l : Launch) : Launch × List Write :=
  match env.invoke nm (build_context reg l) with
  | .ok out =>
    let r : AgentResult :=
      { agent_name := nm, status := .completed, output := some out,
        error_message := none, error_flag := false, timestamp := env.now }
    let l1 : Launch := { l with agent_results := l.agent_results ++ [r] }
    if isLast then
      let s := env.summarize (build_context reg l1)
      ({ l1 with status := .completed, summary := some s },
        [Write.agentResult l.id r, Write.launchStatus l.id .completed (some s)])
    else
      (l1, [Write.agentResult l.id r])
  | .error msg =>
    let r : AgentResult :=
      { agent_name := nm, status := .failed, output := none,
        error_message := some msg, error_flag := true, timestamp := env.now }
    ({ l with agent_results := l.agent_results ++ [r], status := .failed },
      [Write.agentResult l.id r, Write.launchStatus l.id .failed none])

/-- Modelled from the spec (§4.4 Orchestrator loop): iterate the
remaining suffix of the Registry; skip handlers already represented by a
completed AgentResult; otherwise perform the per-handler transition and
continue only while the Launch stays `in_progress`. -/
def runFrom (env : Env) (reg : List String) :
    List String → Launch → Launch × List Write
  | [], l => (l, [])
  | nm :: rest, l =>
    if hasCompletedResult l nm then
      runFrom env reg rest l
    else
      let p := stepHandler env reg rest.isEmpty nm l
      if p.1.status = LaunchStatus.in_progress then
        let q := runFrom env reg rest p.1
        (q.1, p.2 ++ q.2)
      else
        (p.1, p.2)

/-- Modelled from the spec (§4.4): `run` requires an `in_progress`
Launch; on any other status it is a rejection with no state change and
no durable writes. -/
def run (env : Env) (reg : List String) (l : Launch) : Launch × List Write :=
  if l.status = LaunchStatus.in_progress then runFrom env reg reg l else (l, [])

/-- Modelled from the spec (§4.3 start transition, §6 `start`): the
explicit start request succeeds only on a `pending` Launch, moving it to
`in_progress`; otherwise it is rejected. -/
def start (l : Launch) : Except String Launch :=
  if l.status = LaunchStatus.pending then
    Except.ok { l with status := LaunchStatus.in_progress }
  else
    Except.error "launch is not pending"

/-- The persisted state after a start request: the updated Launch on
success, the unchanged Launch on rejection. -/
def applyStart (l : Launch) : Launch :=
  match start l with
  | .ok l1 => l1
  | .error _ => l

/-- The `status(launch_id)` view exposed to the API layer. -/
structure StatusView where
  status : LaunchStatus
  completed_count : Nat
  total_count : Nat
  deriving DecidableEq, Repr

/-- Modelled from the spec (§6): `status(launch_id)` reports the Launch
status, the number of its completed AgentResults, and the Registry
length. -/
def statusOf (reg : List String) (l : Launch) : StatusView :=
  { status := l.status,
    completed_count :=
      (l.agent_results.filter fun r =>
        decide (r.status = ResultStatus.completed)).length,
    total_count := reg.length }

/-- A freshly created Launch: `pending` with zero AgentResults. -/
def mkLaunch (id : Nat) (nm : String) (ts : Nat) : Launch :=
  { id := id, name := nm, status := .pending, summary := none,
    created_at := ts, agent_results := [] }

/-- The launches the engine can produce: creation, the start transition,
and orchestrator runs (under arbitrary collaborator environments). -/
inductive Reachable (reg : List String) : Launch → Prop
  | created (id : Nat) (nm : String) (ts : Nat) :
      Reachable reg (mkLaunch id nm ts)
  | started (l l1 : Launch) :
      Reachable reg l → start l = Except.ok l1 → Reachable reg l1
  | ran (env : Env) (l : Launch) :
      Reachable reg l → Reachable reg (run env reg l).1

/-- The launch's AgentResult agent names, in creation order. -/
def resultNames (l : Launch) : List String :=
  l.agent_results.map fun r => r.agent_name

/-- The status-dependent part of the engine invariant: `pending` launches
have no results; `in_progress` launches have only completed results;
`completed` launches have a completed result for the whole registry;
`failed` launches end in exactly one failed result carrying an
`error_message`, preceded by completed results only. -/
def statusInv (reg : List String) (l : Launch) : Prop :=
  (l.status = LaunchStatus.pending → l.agent_results = []) ∧
  (l.status = LaunchStatus.in_progress →
    ∀ r ∈ l.agent_results, r.status = ResultStatus.completed) ∧
  (l.status = LaunchStatus.completed →
    l.agent_results.length = reg.length ∧
      ∀ r ∈ l.agent_results, r.status = ResultStatus.completed) ∧
  (l.status = LaunchStatus.failed →
    ∃ pre r, l.agent_results = pre ++ [r] ∧
      (∀ x ∈ pre, x.status = ResultStatus.completed) ∧
      r.status = ResultStatus.failed ∧ r.error_message.isSome)

/-- The engine invariant: the results, read in creation order, name a
prefix of the registry order, and the status-dependent shape holds. -/
def Inv (reg : List String) (l : Launch) : Prop :=
  List.IsPrefix (resultNames l) reg ∧ statusInv reg l

/-- A persisted Launch row (the fields the delete path touches). -/
structure LaunchRow where
  id : Nat
  status : LaunchStatus
  summary : Option String
  deriving DecidableEq, Repr

/-- A persisted AgentResult row, holding its owning Launch reference. -/
structure ResultRow where
  launch_id : Nat
  result : AgentResult
  deriving DecidableEq, Repr

/-- The persistence layer state: the Launch table and the AgentResult
table (results reference their Launch by `launch_id`). -/
structure DB where
  launches : List LaunchRow
  results : List ResultRow
  deriving DecidableEq, Repr

/-- Modelled from the spec (§5, §6 `delete_launch`): deleting a Launch
atomically removes the Launch row and every AgentResult it owns.  The
backend delete endpoint is not shipped in `src/`; only its caller
(`launchAPI.deleteLaunch`, `handleDeleteLaunch`) is. -/
def delete_launch (db : DB) (id : Nat) : DB :=
  { launches := db.launches.filter fun l => decide (l.id ≠ id),
    results := db.results.filter fun r => decide (r.launch_id ≠ id) }

/-- Referential integrity: every AgentResult row references an existing
Launch row. -/
def noDangling (db : DB) : Prop :=
  ∀ r ∈ db.results, ∃ l ∈ db.launches, l.id = r.launch_id

/-- Translated from `LaunchDetail` (theme.js):
`launch.agent_results.filter(r => r.status === 'completed').length`. -/
def completedAgents (results : List AgentResult) : Nat :=
  (results.filter fun r => decide (r.status = ResultStatus.completed)).length

/-- Translated from `LaunchDetail` (theme.js):
`launch.agent_results.length` — the dynamic count of recorded results,
not the registry size. -/
def totalAgents (results : List AgentResult) : Nat :=
  results.length

/-- Translated from `LaunchDetail` (theme.js):
`totalAgents > 0 ? (completedAgents / totalAgents) * 100 : 0`, over
exact rationals. -/
def progressPercentage (results : List AgentResult) : ℚ :=
  if 0 < totalAgents results then
    ((completedAgents results : ℚ) / (totalAgents results : ℚ)) * 100
  else 0

/-- A collaborator environment whose every invocation succeeds. -/
def envAllOk : Env :=
  { invoke := fun _ _ => Except.ok "out",
    summarize := fun _ => "sum", now := 0 }

/-- A collaborator environment whose every invocation fails. -/
def envAllFail : Env :=
  { invoke := fun _ _ => Except.error "boom",
    summarize := fun _ => "sum", now := 0 }

/-- A freshly created sample launch. -/
def sampleLaunch : Launch := mkLaunch 0 "w" 0

/-- The sample launch after the start transition. -/
def sampleStarted : Launch := { sampleLaunch with status := .in_progress }

/-- A sample completed AgentResult. -/
def sampleResult : AgentResult :=
  { agent_name := "market_intelligence", status := .completed,
    output := some "out", error_message := none, error_flag := false,
    timestamp := 0 }

/-- A second sample completed AgentResult, for the second registry
handler. -/
def sampleResult2 : AgentResult :=
  { agent_name := "customer_pulse", status := .completed,
    output := some "out2", error_message := none, error_flag := false,
    timestamp := 0 }

/-- An in_progress launch that already holds a completed result for the
first two registry handlers — the shape left behind when the orchestrator
restarts between handler invocations. -/
def samplePartial : Launch :=
  { id := 0, name := "w", status := LaunchStatus.in_progress,
    summary := none, created_at := 0,
    agent_results := [sampleResult, sampleResult2] }

/-- A sample terminal launch. -/
def sampleDone : Launch :=
  { sampleLaunch with status := .completed, summary := some "sum" }

/-- The sample launch after a run in which every invocation fails. -/
def sampleFailed : Launch :=
  (run envAllFail registryNames sampleStarted).1

/-- A sample persistence state with one launch owning one result. -/
def sampleDB : DB :=
  { launches := [{ id := 1, status := .completed, summary := none }],
    results := [{ launch_id := 1, result := sampleResult }] }

theorem hasCompletedResult_eq_true_iff (l : Launch) (nm : String) :
    hasCompletedResult l nm = true ↔
      ∃ r ∈ l.agent_results,
        r.agent_name = nm ∧ r.status = ResultStatus.completed := by
  simp [hasCompletedResult, List.any_eq_true]

/-- Handlers that already have a completed result are skipped by the
orchestrator loop. -/
theorem runFrom_skip_all (env : Env) (reg : List String) :
    ∀ (mid rem : List String) (l : Launch),
      (∀ x ∈ mid, hasCompletedResult l x = true) →
      runFrom env reg (mid ++ rem) l = runFrom env reg rem l := by
  intro mid
  induction mid with
  | nil => intro rem l _; rfl
  | cons nm mid ih =>
    intro rem l h
    have hnm : hasCompletedResult l nm = true := h nm (by simp)
    have hrest : ∀ x ∈ mid, hasCompletedResult l x = true := by
      intro x hx; exact h x (by simp [hx])
    simp only [List.cons_append, runFrom, hnm, if_true]
    exact ih rem l hrest

theorem hasCompletedResult_of_mem (l : Launch)
    (hall : ∀ r ∈ l.agent_results, r.status = ResultStatus.completed)
    (x : String) (hx : x ∈ resultNames l) : hasCompletedResult l x = true := by
  rcases List.mem_map.mp hx with ⟨r, hr, hname⟩
  exact (hasCompletedResult_eq_true_iff l x).mpr ⟨r, hr, hname, hall r hr⟩

theorem hasCompletedResult_eq_false (l : Launch) (nm : String)
    (h : nm ∉ resultNames l) : hasCompletedResult l nm = false := by
  cases hb : hasCompletedResult l nm with
  | false => rfl
  | true =>
    exfalso
    rcases (hasCompletedResult_eq_true_iff l nm).mp hb with ⟨r, hr, hname, _⟩
    exact h (List.mem_map.mpr ⟨r, hr, hname⟩)

/-- Core preservation lemma: starting from an `in_progress` launch whose
completed results name exactly the registry prefix before `rem`, the
orchestrator loop reestablishes the engine invariant. -/
theorem runFrom_preserves (env : Env) (reg : List String) (hnd : reg.Nodup) :
    ∀ (rem : List String) (l : Launch),
      reg = resultNames l ++ rem →
      l.status = LaunchStatus.in_progress →
      (∀ r ∈ l.agent_results, r.status = ResultStatus.completed) →
      Inv reg (runFrom env reg rem l).1 := by
  intro rem
  induction rem with
  | nil =>
    intro l hreg hst hall
    simp only [runFrom]
    refine ⟨⟨[], by simpa using hreg.symm⟩, ?_, ?_, ?_, ?_⟩
    · intro h; rw [hst] at h; exact absurd h (by decide)
    · intro _; exact hall
    · intro h; rw [hst] at h; exact absurd h (by decide)
    · intro h; rw [hst] at h; exact absurd h (by decide)
  | cons nm rest ih =>
    intro l hreg hst hall
    have hnodup : (resultNames l ++ nm :: rest).Nodup := hreg ▸ hnd
    have hdisj := (List.nodup_append.mp hnodup).2.2
    have hnotmem : nm ∉ resultNames l := fun hmem => hdisj hmem (by simp)
    have hfalse : hasCompletedResult l nm = false :=
      hasCompletedResult_eq_false l nm hnotmem
    cases hinv : env.invoke nm (build_context reg l) with
    | ok out =>
      cases rest with
      | nil =>
        simp only [runFrom, hfalse, Bool.false_eq_true, if_false,
          stepHandler, hinv, List.isEmpty_nil, if_true, reduceIte]
        refine ⟨⟨[], by simp [hreg, resultNames]⟩, ?_, ?_, ?_, ?_⟩
        · intro h; simp at h
        · intro h; simp at h
        · intro _
          constructor
          · simp [hreg, resultNames]
          · intro r hr
            rcases List.mem_append.mp hr with hr | hr
            · exact hall r hr
            · simp at hr; subst hr; rfl
        · intro h; simp at h
      | cons nm2 rest2 =>
        simp only [runFrom, hfalse, Bool.false_eq_true, if_false,
          stepHandler, hinv, List.isEmpty_cons, hst, reduceIte]
        apply ih
        · simp [resultNames, hreg]
        · rfl
        · intro r hr
          rcases List.mem_append.mp hr with hr | hr
          · exact hall r hr
          · simp at hr; subst hr; rfl
    | error msg =>
      simp only [runFrom, hfalse, Bool.false_eq_true, if_false,
        stepHandler, hinv, reduceIte]
      refine ⟨⟨rest, by simp [hreg, resultNames]⟩, ?_, ?_, ?_, ?_⟩
      · intro h; simp at h
      · intro h; simp at h
      · intro h; simp at h
      · intro _
        exact ⟨l.agent_results,
          { agent_name := nm, status := .failed, output := none,
            error_message := some msg, error_flag := true,
            timestamp := env.now },
          rfl, hall, rfl, rfl⟩

/-- On an `in_progress` launch satisfying the invariant, `run` resumes
exactly at the first handler not yet represented by a completed result:
the registry suffix after the launch's results. -/
theorem run_eq_runFrom_of_inv (env : Env) (reg : List String) (l : Launch)
    (t : List String) (ht : resultNames l ++ t = reg)
    (hst : l.status = LaunchStatus.in_progress)
    (hall : ∀ r ∈ l.agent_results, r.status = ResultStatus.completed) :
    run env reg l = runFrom env reg t l := by
  have hskip := runFrom_skip_all env reg (resultNames l) t l
    (fun x hx => hasCompletedResult_of_mem l hall x hx)
  rw [ht] at hskip
  unfold run
  rw [if_pos hst, hskip]

/-- The orchestrator's `run` preserves the engine invariant. -/
theorem run_preserves (env : Env) (reg : List String) (hnd : reg.Nodup)
    (l : Launch) (hInv : Inv reg l) : Inv reg (run env reg l).1 := by
  by_cases hst : l.status = LaunchStatus.in_progress
  · rcases hInv.1 with ⟨t, ht⟩
    have hall := hInv.2.2.1 hst
    rw [run_eq_runFrom_of_inv env reg l t ht hst hall]
    exact runFrom_preserves env reg hnd t l ht.symm hst hall
  · unfold run
    rw [if_neg hst]
    exact hInv

/-- Every launch the engine can produce satisfies the engine invariant. -/
theorem reachable_inv (reg : List String) (hnd : reg.Nodup) (l : Launch)
    (h : Reachable reg l) : Inv reg l := by
  induction h with
  | created id nm ts =>
    refine ⟨⟨reg, rfl⟩, ?_, ?_, ?_, ?_⟩
    · intro _; rfl
    · intro h; simp [mkLaunch] at h
    · intro h; simp [mkLaunch] at h
    · intro h; simp [mkLaunch] at h
  | started l l1 hr heq ih =>
    unfold start at heq
    by_cases hp : l.status = LaunchStatus.pending
    · rw [if_pos hp] at heq
      cases heq
      have hres : l.agent_results = [] := ih.2.1 hp
      refine ⟨⟨reg, by simp [resultNames, hres]⟩, ?_, ?_, ?_, ?_⟩
      · intro h; simp at h
      · intro _ r hr; simp [hres] at hr
      · intro h; simp at h
      · intro h; simp at h
    · rw [if_neg hp] at heq
      simp at heq
  | ran env l hr ih =>
    exact run_preserves env reg hnd l ih

theorem registryNames_nodup : registryNames.Nodup := by decide

theorem runFrom_cons_skip (env : Env) (reg : List String) (nm : String)
    (rest : List String) (l : Launch) (hc : hasCompletedResult l nm = true) :
    runFrom env reg (nm :: rest) l = runFrom env reg rest l := by
  simp [runFrom, hc]

theorem runFrom_cons_step_continue (env : Env) (reg : List String)
    (nm : String) (rest : List String) (l : Launch)
    (hc : hasCompletedResult l nm = false)
    (hst : (stepHandler env reg rest.isEmpty nm l).1.status =
      LaunchStatus.in_progress) :
    runFrom env reg (nm :: rest) l =
      ((runFrom env reg rest (stepHandler env reg rest.isEmpty nm l).1).1,
        (stepHandler env reg rest.isEmpty nm l).2 ++
          (runFrom env reg rest (stepHandler env reg rest.isEmpty nm l).1).2) := by
  simp [runFrom, hc, hst]

theorem runFrom_cons_step_stop (env : Env) (reg : List String)
    (nm : String) (rest : List String) (l : Launch)
    (hc : hasCompletedResult l nm = false)
    (hst : (stepHandler env reg rest.isEmpty nm l).1.status ≠
      LaunchStatus.in_progress) :
    runFrom env reg (nm :: rest) l = stepHandler env reg rest.isEmpty nm l := by
  simp [runFrom, hc, hst]

/-- Every per-handler transition appends exactly one AgentResult. -/
theorem stepHandler_results (env : Env) (reg : List String) (isLast : Bool)
    (nm : String) (l : Launch) :
    ∃ r, (stepHandler env reg isLast nm l).1.agent_results =
      l.agent_results ++ [r] := by
  unfold stepHandler
  cases env.invoke nm (build_context reg l) with
  | ok out => cases isLast <;> exact ⟨_, rfl⟩
  | error msg => exact ⟨_, rfl⟩

/-- The orchestrator loop only appends AgentResults; it never rewrites
or removes the ones already recorded. -/
theorem runFrom_results_extend (env : Env) (reg : List String) :
    ∀ (rem : List String) (l : Launch),
      ∃ tail, (runFrom env reg rem l).1.agent_results =
        l.agent_results ++ tail := by
  intro rem
  induction rem with
  | nil => intro l; exact ⟨[], by simp [runFrom]⟩
  | cons nm rest ih =>
    intro l
    by_cases hc : hasCompletedResult l nm = true
    · rw [runFrom_cons_skip env reg nm rest l hc]
      exact ih l
    · have hc2 : hasCompletedResult l nm = false := by simpa using hc
      obtain ⟨r, hr⟩ := stepHandler_results env reg rest.isEmpty nm l
      by_cases hst : (stepHandler env reg rest.isEmpty nm l).1.status =
          LaunchStatus.in_progress
      · rw [runFrom_cons_step_continue env reg nm rest l hc2 hst]
        obtain ⟨tail, htail⟩ := ih (stepHandler env reg rest.isEmpty nm l).1
        exact ⟨[r] ++ tail, by simp [htail, hr]⟩
      · rw [runFrom_cons_step_stop env reg nm rest l hc2 hst]
        exact ⟨[r], hr⟩

/-- Every per-handler transition performs exactly one durable
AgentResult write and at most one Launch-status write. -/
theorem stepHandler_writes (env : Env) (reg : List String) (isLast : Bool)
    (nm : String) (l : Launch) :
    ((stepHandler env reg isLast nm l).2.filter Write.isAgentResult).length
        = 1 ∧
    ((stepHandler env reg isLast nm l).2.filter Write.isLaunchStatus).length
        ≤ 1 := by
  unfold stepHandler
  cases env.invoke nm (build_context reg l) with
  | ok out =>
    cases isLast <;> simp [Write.isAgentResult, Write.isLaunchStatus]
  | error msg => simp [Write.isAgentResult, Write.isLaunchStatus]

/-- Under the run precondition, a per-handler transition performs a
Launch-status write exactly when it failed or was the final handler. -/
theorem stepHandler_status_write_count (env : Env) (reg : List String)
    (isLast : Bool) (nm : String) (l : Launch)
    (hst : l.status = LaunchStatus.in_progress) :
    ((stepHandler env reg isLast nm l).2.filter Write.isLaunchStatus).length
      = if (stepHandler env reg isLast nm l).1.status = LaunchStatus.failed
            ∨ isLast = true then 1 else 0 := by
  unfold stepHandler
  cases env.invoke nm (build_context reg l) with
  | ok out => cases isLast <;> simp [Write.isLaunchStatus, hst]
  | error msg => simp [Write.isLaunchStatus]

/-- A whole orchestrator run performs at most one Launch-status write. -/
theorem runFrom_status_writes_le (env : Env) (reg : List String) :
    ∀ (rem : List String) (l : Launch),
      ((runFrom env reg rem l).2.filter Write.isLaunchStatus).length ≤ 1 := by
  intro rem
  induction rem with
  | nil => intro l; simp [runFrom]
  | cons nm rest ih =>
    intro l
    by_cases hc : hasCompletedResult l nm = true
    · rw [runFrom_cons_skip env reg nm rest l hc]
      exact ih l
    · have hc2 : hasCompletedResult l nm = false := by simpa using hc
      by_cases hst : (stepHandler env reg rest.isEmpty nm l).1.status =
          LaunchStatus.in_progress
      · rw [runFrom_cons_step_continue env reg nm rest l hc2 hst]
        have h0 : ((stepHandler env reg rest.isEmpty nm l).2.filter
            Write.isLaunchStatus).length = 0 := by
          revert hst
          unfold stepHandler
          cases hinv : env.invoke nm (build_context reg l) with
          | ok out => cases rest.isEmpty <;> simp [Write.isLaunchStatus]
          | error msg => simp [Write.isLaunchStatus]
        simp only [List.filter_append, List.length_append, h0,
          Nat.zero_add]
        exact ih _
      · rw [runFrom_cons_step_stop env reg nm rest l hc2 hst]
        exact (stepHandler_writes env reg rest.isEmpty nm l).2

/-- A per-handler transition either keeps the launch status or moves it
to completed or failed. -/
theorem stepHandler_status_cases (env : Env) (reg : List String)
    (isLast : Bool) (nm : String) (l : Launch) :
    (stepHandler env reg isLast nm l).1.status = l.status ∨
    (stepHandler env reg isLast nm l).1.status = LaunchStatus.completed ∨
    (stepHandler env reg isLast nm l).1.status = LaunchStatus.failed := by
  unfold stepHandler
  cases env.invoke nm (build_context reg l) with
  | ok out => cases isLast <;> simp
  | error msg => simp

/-- The orchestrator loop either keeps the launch status or moves it to
completed or failed. -/
theorem runFrom_status_cases (env : Env) (reg : List String) :
    ∀ (rem : List String) (l : Launch),
      (runFrom env reg rem l).1.status = l.status ∨
      (runFrom env reg rem l).1.status = LaunchStatus.completed ∨
      (runFrom env reg rem l).1.status = LaunchStatus.failed := by
  intro rem
  induction rem with
  | nil => intro l; left; simp [runFrom]
  | cons nm rest ih =>
    intro l
    by_cases hc : hasCompletedResult l nm = true
    · rw [runFrom_cons_skip env reg nm rest l hc]
      exact ih l
    · have hc2 : hasCompletedResult l nm = false := by simpa using hc
      by_cases hst : (stepHandler env reg rest.isEmpty nm l).1.status =
          LaunchStatus.in_progress
      · rw [runFrom_cons_step_continue env reg nm rest l hc2 hst]
        have hls : l.status = LaunchStatus.in_progress := by
          rcases stepHandler_status_cases env reg rest.isEmpty nm l with
            hs | hs | hs
          · rw [← hs]; exact hst
          · rw [hs] at hst; exact absurd hst (by decide)
          · rw [hs] at hst; exact absurd hst (by decide)
        have hq := ih (stepHandler env reg rest.isEmpty nm l).1
        rw [hst, ← hls] at hq
        exact hq
      · rw [runFrom_cons_step_stop env reg nm rest l hc2 hst]
        exact stepHandler_status_cases env reg rest.isEmpty nm l

/-- A run either leaves the launch status unchanged or performs an
in_progress-to-terminal transition: the only transitions `run` can make
are in_progress to completed and in_progress to failed. -/
theorem run_status_cases (env : Env) (reg : List String) (l : Launch) :
    (run env reg l).1.status = l.status ∨
      (l.status = LaunchStatus.in_progress ∧
        ((run env reg l).1.status = LaunchStatus.completed ∨
          (run env reg l).1.status = LaunchStatus.failed)) := by
  unfold run
  by_cases hst : l.status = LaunchStatus.in_progress
  · rw [if_pos hst]
    rcases runFrom_status_cases env reg reg l with h | h | h
    · left; exact h
    · right; exact ⟨hst, Or.inl h⟩
    · right; exact ⟨hst, Or.inr h⟩
  · rw [if_neg hst]
    left
    rfl

/-- C1: For every Launch, at every point in its lifecycle, the sequence
of its AgentResults read in creation order equals a prefix of the Handler
Registry's defined handler order: no handler has a result out of Registry
order, and no handler has more than one result for the same Launch. -/
theorem C1_results_prefix_of_registry (l : Launch)
    (h : Reachable registryNames l) :
    List.IsPrefix (resultNames l) registryNames ∧
      (resultNames l).Nodup := by
  have hInv := reachable_inv registryNames registryNames_nodup l h
  exact ⟨hInv.1, List.Nodup.sublist hInv.1.sublist registryNames_nodup⟩

theorem C1_results_prefix_of_registry_witness :
    Reachable registryNames sampleLaunch ∧
      (List.IsPrefix (resultNames sampleLaunch) registryNames ∧
        (resultNames sampleLaunch).Nodup) :=
  ⟨Reachable.created 0 "w" 0,
    C1_results_prefix_of_registry sampleLaunch (Reachable.created 0 "w" 0)⟩

/-- C2: The Handler Registry is a static ordered list of exactly 15
handler definitions, fixed at process start with no mutation operations
(it is a top-level constant of this embedding), and this list is the
authoritative execution order for every Launch: any reachable launch's
results name exactly the registry-order prefix of its own length. -/
theorem C2_registry_fifteen_fixed :
    registry.length = 15 ∧ registryNames.Nodup ∧
      ∀ l : Launch, Reachable registryNames l →
        resultNames l = registryNames.take l.agent_results.length := by
  refine ⟨rfl, registryNames_nodup, ?_⟩
  intro l h
  have hInv := reachable_inv registryNames registryNames_nodup l h
  rcases hInv.1 with ⟨t, ht⟩
  have hlen : (resultNames l).length = l.agent_results.length := by
    simp [resultNames]
  rw [← ht, ← hlen, List.take_left]

theorem C2_registry_fifteen_fixed_witness :
    Reachable registryNames sampleLaunch ∧
      resultNames sampleLaunch =
        registryNames.take sampleLaunch.agent_results.length :=
  ⟨Reachable.created 0 "w" 0,
    C2_registry_fifteen_fixed.2.2 sampleLaunch (Reachable.created 0 "w" 0)⟩

/-- C3: Every Launch status is one of pending, in_progress, completed,
failed, and the only transitions are pending to in_progress and
in_progress to completed or failed: the start transition is exactly
pending to in_progress, `start` leaves every non-pending launch
unchanged, `run` leaves every launch that is not in_progress (in
particular completed and failed ones) unchanged, and on any launch `run`
either keeps the status or moves an in_progress launch to completed or
failed — never anywhere else. -/
theorem C3_status_machine :
    (∀ l : Launch, l.status = LaunchStatus.pending ∨
        l.status = LaunchStatus.in_progress ∨
        l.status = LaunchStatus.completed ∨
        l.status = LaunchStatus.failed) ∧
    (∀ l l1 : Launch, start l = Except.ok l1 →
        l.status = LaunchStatus.pending ∧
          l1 = { l with status := LaunchStatus.in_progress }) ∧
    (∀ l : Launch, l.status ≠ LaunchStatus.pending → applyStart l = l) ∧
    (∀ (env : Env) (l : Launch), l.status ≠ LaunchStatus.in_progress →
        (run env registryNames l).1 = l) ∧
    (∀ (env : Env) (l : Launch),
        (run env registryNames l).1.status = l.status ∨
          (l.status = LaunchStatus.in_progress ∧
            ((run env registryNames l).1.status = LaunchStatus.completed ∨
              (run env registryNames l).1.status = LaunchStatus.failed))) := by
  refine ⟨?_, ?_, ?_, ?_, ?_⟩
  · intro l; cases h : l.status <;> simp
  · intro l l1 heq
    unfold start at heq
    by_cases hp : l.status = LaunchStatus.pending
    · rw [if_pos hp] at heq
      cases heq
      exact ⟨hp, rfl⟩
    · rw [if_neg hp] at heq
      simp at heq
  · intro l hp
    simp [applyStart, start, hp]
  · intro env l hst
    unfold run
    rw [if_neg hst]
  · intro env l
    exact run_status_cases env registryNames l

theorem C3_status_machine_witness :
    sampleDone.status ≠ LaunchStatus.pending ∧
      applyStart sampleDone = sampleDone ∧
      ((run envAllOk registryNames sampleStarted).1.status =
          sampleStarted.status ∨
        (sampleStarted.status = LaunchStatus.in_progress ∧
          ((run envAllOk registryNames sampleStarted).1.status =
              LaunchStatus.completed ∨
            (run envAllOk registryNames sampleStarted).1.status =
              LaunchStatus.failed))) :=
  ⟨by decide, C3_status_machine.2.2.1 sampleDone (by decide),
    C3_status_machine.2.2.2.2 envAllOk sampleStarted⟩

/-- C4: For every Launch whose status is not pending, the start
operation is rejected and leaves the Launch's status, summary, and
AgentResult collection completely unchanged; in particular starting an
already-completed Launch twice does not reset it. -/
theorem C4_start_rejected_nonpending (l : Launch)
    (h : l.status ≠ LaunchStatus.pending) :
    (∃ e, start l = Except.error e) ∧ applyStart l = l ∧
      (applyStart l).status = l.status ∧
      (applyStart l).summary = l.summary ∧
      (applyStart l).agent_results = l.agent_results ∧
      applyStart (applyStart l) = l := by
  have he : start l = Except.error "launch is not pending" := by
    unfold start
    rw [if_neg h]
  have ha : applyStart l = l := by simp [applyStart, he]
  exact ⟨⟨_, he⟩, ha, by rw [ha], by rw [ha], by rw [ha], by rw [ha, ha]⟩

theorem C4_start_rejected_nonpending_witness :
    sampleDone.status ≠ LaunchStatus.pending ∧
      ((∃ e, start sampleDone = Except.error e) ∧
        applyStart sampleDone = sampleDone ∧
        (applyStart sampleDone).status = sampleDone.status ∧
        (applyStart sampleDone).summary = sampleDone.summary ∧
        (applyStart sampleDone).agent_results = sampleDone.agent_results ∧
        applyStart (applyStart sampleDone) = sampleDone) :=
  ⟨by decide, C4_start_rejected_nonpending sampleDone (by decide)⟩

/-- C5: For every Launch whose status is failed, exactly one of its
AgentResults has status failed, that failed result is the last in the
sequence and carries an error_message, every AgentResult preceding it has
status completed, and (the results being a registry-order prefix) no
AgentResult exists for any handler after the failed one. -/
theorem C5_failed_launch_shape (l : Launch)
    (h : Reachable registryNames l) (hf : l.status = LaunchStatus.failed) :
    ∃ pre r, l.agent_results = pre ++ [r] ∧
      (∀ x ∈ pre, x.status = ResultStatus.completed) ∧
      r.status = ResultStatus.failed ∧ r.error_message.isSome ∧
      (l.agent_results.filter fun x =>
        decide (x.status = ResultStatus.failed)).length = 1 ∧
      List.IsPrefix (resultNames l) registryNames := by
  have hInv := reachable_inv registryNames registryNames_nodup l h
  obtain ⟨pre, r, hres, hpre, hrf, hmsg⟩ := hInv.2.2.2.2 hf
  refine ⟨pre, r, hres, hpre, hrf, hmsg, ?_, hInv.1⟩
  rw [hres, List.filter_append]
  have h1 : pre.filter (fun x => decide (x.status = ResultStatus.failed))
      = [] := by
    rw [List.filter_eq_nil_iff]
    intro x hx
    simp [hpre x hx]
  rw [h1]
  simp [hrf]

theorem C5_failed_launch_shape_witness :
    Reachable registryNames sampleFailed ∧
      sampleFailed.status = LaunchStatus.failed ∧
      ∃ pre r, sampleFailed.agent_results = pre ++ [r] ∧
        (∀ x ∈ pre, x.status = ResultStatus.completed) ∧
        r.status = ResultStatus.failed ∧ r.error_message.isSome ∧
        (sampleFailed.agent_results.filter fun x =>
          decide (x.status = ResultStatus.failed)).length = 1 ∧
        List.IsPrefix (resultNames sampleFailed) registryNames :=
  ⟨Reachable.ran envAllFail sampleStarted
      (Reachable.started sampleLaunch sampleStarted
        (Reachable.created 0 "w" 0) rfl),
    by decide,
    C5_failed_launch_shape sampleFailed
      (Reachable.ran envAllFail sampleStarted
        (Reachable.started sampleLaunch sampleStarted
          (Reachable.created 0 "w" 0) rfl))
      (by decide)⟩

/-- C6: For every in_progress Launch that already has a prefix of
completed AgentResults (the engine-invariant shape, which includes the
states an orchestrator restart leaves behind mid-run, with any number of
completed results), `run` resumes exactly from the first handler not yet
represented by a completed AgentResult — the registry suffix after the
recorded results — only appends to the recorded results, and neither it
nor a second invocation without intervening state change ever produces a
duplicate AgentResult for an already-completed handler. -/
theorem C6_run_resumable (env env2 : Env) (l : Launch)
    (hInv : Inv registryNames l)
    (hst : l.status = LaunchStatus.in_progress) :
    run env registryNames l =
      runFrom env registryNames
        (registryNames.drop l.agent_results.length) l ∧
    List.IsPrefix l.agent_results
      (run env registryNames l).1.agent_results ∧
    (resultNames (run env registryNames l).1).Nodup ∧
    (resultNames (run env2 registryNames
      (run env registryNames l).1).1).Nodup := by
  obtain ⟨t, ht⟩ := hInv.1
  have hall := hInv.2.2.1 hst
  have hlen : (resultNames l).length = l.agent_results.length := by
    simp [resultNames]
  have hdrop : registryNames.drop l.agent_results.length = t := by
    rw [← ht, ← hlen, List.drop_left]
  have hrun := run_eq_runFrom_of_inv env registryNames l t ht hst hall
  have hInv1 : Inv registryNames (run env registryNames l).1 :=
    run_preserves env registryNames registryNames_nodup l hInv
  refine ⟨?_, ?_, ?_, ?_⟩
  · rw [hdrop]
    exact hrun
  · obtain ⟨tail, htail⟩ := runFrom_results_extend env registryNames t l
    rw [hrun]
    exact ⟨tail, htail.symm⟩
  · exact List.Nodup.sublist hInv1.1.sublist registryNames_nodup
  · have hInv2 : Inv registryNames
        (run env2 registryNames (run env registryNames l).1).1 :=
      run_preserves env2 registryNames registryNames_nodup _ hInv1
    exact List.Nodup.sublist hInv2.1.sublist registryNames_nodup

theorem C6_run_resumable_witness :
    Inv registryNames samplePartial ∧
      samplePartial.status = LaunchStatus.in_progress ∧
      (run envAllOk registryNames samplePartial =
        runFrom envAllOk registryNames
          (registryNames.drop samplePartial.agent_results.length)
          samplePartial ∧
      List.IsPrefix samplePartial.agent_results
        (run envAllOk registryNames samplePartial).1.agent_results ∧
      (resultNames (run envAllOk registryNames samplePartial).1).Nodup ∧
      (resultNames (run envAllOk registryNames
        (run envAllOk registryNames samplePartial).1).1).Nodup) := by
  have hInvSP : Inv registryNames samplePartial := by
    refine ⟨⟨registryNames.drop 2, by decide⟩, ?_, ?_, ?_, ?_⟩
    · intro h; exact absurd h (by decide)
    · intro _; decide
    · intro h; exact absurd h (by decide)
    · intro h; exact absurd h (by decide)
  exact ⟨hInvSP, rfl,
    C6_run_resumable envAllOk envAllOk samplePartial hInvSP rfl⟩

/-- C7: The status operation returns a record with fields status,
completed_count and total_count, where total_count is the Handler
Registry length (here 15) and completed_count is the number of the
Launch's completed AgentResults (never exceeding total_count on a
reachable launch). -/
theorem C7_status_view (l : Launch) (h : Reachable registryNames l) :
    (statusOf registryNames l).status = l.status ∧
    (statusOf registryNames l).completed_count =
      (l.agent_results.filter fun r =>
        decide (r.status = ResultStatus.completed)).length ∧
    (statusOf registryNames l).total_count = registryNames.length ∧
    (statusOf registryNames l).total_count = 15 ∧
    (statusOf registryNames l).completed_count ≤
      (statusOf registryNames l).total_count := by
  refine ⟨rfl, rfl, rfl, rfl, ?_⟩
  have hInv := reachable_inv registryNames registryNames_nodup l h
  have h1 : (l.agent_results.filter fun r =>
      decide (r.status = ResultStatus.completed)).length ≤
        l.agent_results.length := List.length_filter_le _ _
  have h2 : l.agent_results.length ≤ registryNames.length := by
    have h3 := hInv.1.length_le
    simpa [resultNames] using h3
  exact le_trans h1 h2

theorem C7_status_view_witness :
    Reachable registryNames sampleLaunch ∧
      ((statusOf registryNames sampleLaunch).status =
          sampleLaunch.status ∧
        (statusOf registryNames sampleLaunch).completed_count =
          (sampleLaunch.agent_results.filter fun r =>
            decide (r.status = ResultStatus.completed)).length ∧
        (statusOf registryNames sampleLaunch).total_count =
          registryNames.length ∧
        (statusOf registryNames sampleLaunch).total_count = 15 ∧
        (statusOf registryNames sampleLaunch).completed_count ≤
          (statusOf registryNames sampleLaunch).total_count) :=
  ⟨Reachable.created 0 "w" 0,
    C7_status_view sampleLaunch (Reachable.created 0 "w" 0)⟩

/-- C8: Every per-handler transition performs exactly one durable
AgentResult write; under the run precondition it performs a Launch-status
write exactly when the handler failed or was the final one; and a whole
run performs at most one Launch-status write.  (In this embedding the
write log is produced only by the orchestration engine, so no other
component writes Launch or AgentResult state.) -/
theorem C8_write_discipline :
    (∀ (env : Env) (reg : List String) (isLast : Bool) (nm : String)
        (l : Launch),
      ((stepHandler env reg isLast nm l).2.filter
        Write.isAgentResult).length = 1) ∧
    (∀ (env : Env) (reg : List String) (isLast : Bool) (nm : String)
        (l : Launch), l.status = LaunchStatus.in_progress →
      ((stepHandler env reg isLast nm l).2.filter
          Write.isLaunchStatus).length =
        if (stepHandler env reg isLast nm l).1.status = LaunchStatus.failed
            ∨ isLast = true then 1 else 0) ∧
    (∀ (env : Env) (l : Launch),
      ((run env registryNames l).2.filter Write.isLaunchStatus).length
        ≤ 1) := by
  refine ⟨?_, ?_, ?_⟩
  · intro env reg isLast nm l
    exact (stepHandler_writes env reg isLast nm l).1
  · intro env reg isLast nm l hst
    exact stepHandler_status_write_count env reg isLast nm l hst
  · intro env l
    unfold run
    by_cases hst : l.status = LaunchStatus.in_progress
    · rw [if_pos hst]
      exact runFrom_status_writes_le env registryNames registryNames l
    · rw [if_neg hst]
      simp

theorem C8_write_discipline_witness :
    sampleStarted.status = LaunchStatus.in_progress ∧
      ((stepHandler envAllOk registryNames true "x" sampleStarted).2.filter
          Write.isLaunchStatus).length =
        if (stepHandler envAllOk registryNames true "x"
              sampleStarted).1.status = LaunchStatus.failed
            ∨ (true : Bool) = true then 1 else 0 :=
  ⟨rfl, C8_write_discipline.2.1 envAllOk registryNames true "x"
    sampleStarted rfl⟩

/-- C9: Deleting a Launch atomically removes the Launch and all of its
AgentResults, so that after any delete no AgentResult references the
deleted Launch and no AgentResult's Launch reference is dangling. -/
theorem C9_delete_cascades (db : DB) (id : Nat) (h : noDangling db) :
    noDangling (delete_launch db id) ∧
      (∀ r ∈ (delete_launch db id).results, r.launch_id ≠ id) ∧
      (∀ lw ∈ (delete_launch db id).launches, lw.id ≠ id) := by
  refine ⟨?_, ?_, ?_⟩
  · intro r hr
    simp only [delete_launch, List.mem_filter, decide_eq_true_eq] at hr
    obtain ⟨hrm, hrid⟩ := hr
    obtain ⟨lw, hlw, hlid⟩ := h r hrm
    refine ⟨lw, ?_, hlid⟩
    simp only [delete_launch, List.mem_filter, decide_eq_true_eq]
    exact ⟨hlw, by rw [hlid]; exact hrid⟩
  · intro r hr
    simp only [delete_launch, List.mem_filter, decide_eq_true_eq] at hr
    exact hr.2
  · intro lw hlw
    simp only [delete_launch, List.mem_filter, decide_eq_true_eq] at hlw
    exact hlw.2

theorem C9_delete_cascades_witness :
    noDangling sampleDB ∧
      (noDangling (delete_launch sampleDB 1) ∧
        (∀ r ∈ (delete_launch sampleDB 1).results, r.launch_id ≠ 1) ∧
        (∀ lw ∈ (delete_launch sampleDB 1).launches, lw.id ≠ 1)) :=
  ⟨by unfold noDangling; decide,
    C9_delete_cascades sampleDB 1 (by unfold noDangling; decide)⟩

/-- C10: The launch detail view computes the workflow progress
percentage as completed results divided by the total number of
AgentResults recorded so far (not by the Registry's handler count): a
launch whose recorded results are all completed shows 100% even while
registry handlers remain unexecuted, and a launch with zero AgentResults
shows 0%. -/
theorem C10_progress_from_recorded_results :
    (∀ results : List AgentResult, results ≠ [] →
        (∀ r ∈ results, r.status = ResultStatus.completed) →
        progressPercentage results = 100) ∧
    progressPercentage [] = 0 ∧
    (∃ results : List AgentResult,
        totalAgents results < registryNames.length ∧
        progressPercentage results = 100) := by
  have hmain : ∀ results : List AgentResult, results ≠ [] →
      (∀ r ∈ results, r.status = ResultStatus.completed) →
      progressPercentage results = 100 := by
    intro results hne hall
    have hfil : results.filter (fun r =>
        decide (r.status = ResultStatus.completed)) = results :=
      List.filter_eq_self.mpr (fun a ha => by simp [hall a ha])
    have hc : completedAgents results = results.length := by
      unfold completedAgents
      rw [hfil]
    have hpos : 0 < totalAgents results :=
      List.length_pos.mpr hne
    have hnz : ((results.length : ℚ)) ≠ 0 := by
      exact_mod_cast Nat.pos_iff_ne_zero.mp hpos
    unfold progressPercentage
    rw [if_pos hpos, hc]
    unfold totalAgents
    rw [div_self hnz, one_mul]
  refine ⟨hmain, by simp [progressPercentage, totalAgents], ?_⟩
  refine ⟨[sampleResult], by simp [totalAgents, registryNames, registry], ?_⟩
  apply hmain
  · simp
  · intro r hr
    simp at hr
    rw [hr]
    rfl

theorem C10_progress_from_recorded_results_witness :
    ([sampleResult] : List AgentResult) ≠ [] ∧
      (∀ r ∈ ([sampleResult] : List AgentResult),
        r.status = ResultStatus.completed) ∧
      progressPercentage [sampleResult] = 100 :=
  ⟨by decide, by decide,
    C10_progress_from_recorded_results.1 [sampleResult]
      (by decide) (by decide)⟩

end Orchestrator
